import Mathlib

/-!
Verification of the 256-bit modular-arithmetic engine (`src/u256.rs`) and the
secp256k1 point engine (`src/secp256k1.rs`) of the eccsecp256k1 crate.

The 256-bit unsigned integers of the crate (`primitive_types::U256`) are
embedded as `Nat`; where truncation to 256 bits matters it is written
explicitly as `% 2 ^ 256`.  A Rust panic (a failed `expect` or `assert!`)
is modelled by `none`, so every fallible operation returns `Option Nat`.
-/

/-- Largest value representable by the 256-bit unsigned type (`PU256::MAX`). -/
def U256MAX : Nat := 2 ^ 256 - 1

/-- `checked_rem` of `primitive_types::U256`: fails exactly when the divisor is zero. -/
def checked_rem (a p : Nat) : Option Nat :=
  if p = 0 then none else some (a % p)

/-- `checked_sub` of `primitive_types::U256`: fails on underflow. -/
def checked_sub (a b : Nat) : Option Nat :=
  if b ≤ a then some (a - b) else none

/-- `checked_add` of `primitive_types::U256`: fails when the sum exceeds `U256MAX`. -/
def checked_add (a b : Nat) : Option Nat :=
  if a + b ≤ U256MAX then some (a + b) else none

/-- `overflowing_add` of `primitive_types::U256`: the truncated 256-bit sum
together with the overflow flag. -/
def overflowing_add (a b : Nat) : Nat × Bool :=
  ((a + b) % 2 ^ 256, decide (2 ^ 256 ≤ a + b))

/-- `U256::add_mod` from `src/u256.rs`: reduce both operands mod `p`, add with
overflow detection, compensate a wrapped sum by adding back `MAX - p + 1`, and
reduce.  Each `expect` of the source is a `none` case here. -/
def add_mod (a b p : Nat) : Option Nat :=
  match checked_rem a p, checked_rem b p with
  | some x1, some x2 =>
    let ov := overflowing_add x1 x2
    let x3c : Option Nat :=
      if ov.2 then
        match checked_sub U256MAX p with
        | some s =>
          match checked_add s 1 with
          | some s1 => checked_add ov.1 s1
          | none => none
        | none => none
      else some ov.1
    match x3c with
    | some x3 => checked_rem x3 p
    | none => none
  | _, _ => none

theorem add_mod_eq (a b p : Nat) (h1 : 1 ≤ p) (h2 : p ≤ U256MAX) :
    add_mod a b p = some ((a + b) % p) := by
  have hp0 : p ≠ 0 := by omega
  have hpow : 0 < 2 ^ 256 := Nat.pos_pow_of_pos _ (by norm_num)
  have hMAX : U256MAX = 2 ^ 256 - 1 := rfl
  have hx1 : a % p < p := Nat.mod_lt _ (by omega)
  have hx2 : b % p < p := Nat.mod_lt _ (by omega)
  by_cases hov : 2 ^ 256 ≤ a % p + b % p
  · -- the raw addition wraps
    have hlt : a % p + b % p < 2 * 2 ^ 256 := by rw [hMAX] at h2; omega
    have htr : (a % p + b % p) % 2 ^ 256 = a % p + b % p - 2 ^ 256 := by
      rw [Nat.mod_eq_sub_mod hov]
      exact Nat.mod_eq_of_lt (by omega)
    have hseg : U256MAX - p + 1 ≤ U256MAX := by rw [hMAX]; omega
    have hfit : a % p + b % p - 2 ^ 256 + (U256MAX - p + 1) ≤ U256MAX := by
      rw [hMAX] at h2 ⊢; omega
    have hval : a % p + b % p - 2 ^ 256 + (U256MAX - p + 1) = a % p + b % p - p := by
      rw [hMAX] at h2 ⊢; omega
    have hple : p ≤ a % p + b % p := by rw [hMAX] at h2; omega
    simp only [add_mod, checked_rem, if_neg hp0, overflowing_add, checked_sub,
      checked_add, if_pos h2, if_pos hseg, if_pos hfit, decide_eq_true_eq,
      if_pos hov, htr, hval]
    rw [if_pos (hval ▸ hfit)]
    show some ((a % p + b % p - p) % p) = some ((a + b) % p)
    rw [← Nat.mod_eq_sub_mod hple, ← Nat.add_mod]
  · -- no overflow
    have htr : (a % p + b % p) % 2 ^ 256 = a % p + b % p :=
      Nat.mod_eq_of_lt (by omega)
    simp only [add_mod, checked_rem, if_neg hp0, overflowing_add,
      decide_eq_true_eq, if_neg hov, htr]
    rw [← Nat.add_mod]

/-- `U256::sub_mod` from `src/u256.rs`: `a - b (mod p)` computed as
`add_mod(a mod p, p - (b mod p), p)` to avoid unsigned underflow. -/
def sub_mod (a b p : Nat) : Option Nat :=
  match checked_rem a p, checked_rem b p with
  | some x1, some x2 => add_mod x1 (p - x2) p
  | _, _ => none

theorem sub_mod_eq (a b p : Nat) (h1 : 1 ≤ p) (h2 : p ≤ U256MAX) :
    sub_mod a b p = some ((a % p + (p - b % p)) % p) := by
  have hp0 : p ≠ 0 := by omega
  simp only [sub_mod, checked_rem, if_neg hp0]
  rw [add_mod_eq _ _ _ h1 h2]

/-- The most-significant-bit-first binary decomposition of `n` into `w` bits
(the bit of weight `2 ^ (w - 1)` first). -/
def natBits : Nat → Nat → List Nat
  | 0, _ => []
  | w + 1, n => (n / 2 ^ w % 2) :: natBits w n

/-- Modelled from the spec: the bit-decomposition collaborator
(`bytes::bytes_to_binary`, whose source is not part of this repository
snapshot, composed with the 32-byte big-endian serialization `to_bytes`)
turns a 256-bit value into its ordered sequence of 256 bits, most
significant first. -/
def bytes_to_binary (n : Nat) : List Nat := natBits 256 n

/-- The numeric value of a most-significant-bit-first digit list, a digit
counting as set exactly when it is positive (the `d > 0` test of the source). -/
def bitsVal : List Nat → Nat
  | [] => 0
  | d :: ds => (if 0 < d then 1 else 0) * 2 ^ ds.length + bitsVal ds

theorem natBits_length (w n : Nat) : (natBits w n).length = w := by
  induction w with
  | zero => rfl
  | succ w ih => simp [natBits, ih]

theorem bitsVal_natBits (w n : Nat) : bitsVal (natBits w n) = n % 2 ^ w := by
  induction w with
  | zero => simp [natBits, bitsVal, Nat.mod_one]
  | succ w ih =>
    have hd : n / 2 ^ w % 2 = 0 ∨ n / 2 ^ w % 2 = 1 := by omega
    have hsplit : n % 2 ^ (w + 1) = n / 2 ^ w % 2 * 2 ^ w + n % 2 ^ w := by
      conv_lhs => rw [pow_succ, Nat.mod_mul, Nat.mul_comm]
      exact Nat.add_comm _ _
    simp only [natBits, bitsVal, natBits_length, ih, hsplit]
    rcases hd with h | h <;> simp [h, Nat.add_comm]

/-- The double-and-add loop of `U256::mul_mod`: `base` is the accumulator,
`on` the flag that flips at the first set bit. -/
def mul_loop (adder p : Nat) : List Nat → Nat → Bool → Option Nat
  | [], base, _ => some base
  | d :: ds, base, flag =>
    match (if flag then add_mod base base p else some base) with
    | none => none
    | some b1 =>
      if 0 < d then
        match add_mod b1 adder p with
        | none => none
        | some b2 => mul_loop adder p ds b2 true
      else mul_loop adder p ds b1 flag

/-- `U256::mul_mod` from `src/u256.rs`: reduce both operands mod `p`, pick the
smaller as the bit-driven operand `seq` and the larger as the constant
`adder`, and run double-and-add over the 256 bits of `seq`. -/
def mul_mod (a b p : Nat) : Option Nat :=
  match checked_rem a p, checked_rem b p with
  | some x1, some x2 =>
    let sa := if x1 < x2 then (x1, x2) else (x2, x1)
    mul_loop sa.2 p (bytes_to_binary sa.1) 0 false
  | _, _ => none

theorem mul_loop_on (adder p : Nat) (h1 : 1 ≤ p) (h2 : p ≤ U256MAX) :
    ∀ (bits : List Nat) (base : Nat), base < p →
      mul_loop adder p bits base true =
        some ((base * 2 ^ bits.length + bitsVal bits * adder) % p) := by
  intro bits
  induction bits with
  | nil =>
    intro base hb
    simp [mul_loop, bitsVal, Nat.mod_eq_of_lt hb]
  | cons d ds ih =>
    intro base hb
    have hstep : add_mod base base p = some ((base + base) % p) :=
      add_mod_eq _ _ _ h1 h2
    have hb1 : (base + base) % p < p := Nat.mod_lt _ (by omega)
    by_cases hd : 0 < d
    · have hstep2 : add_mod ((base + base) % p) adder p =
          some (((base + base) % p + adder) % p) := add_mod_eq _ _ _ h1 h2
      have hb2 : ((base + base) % p + adder) % p < p := Nat.mod_lt _ (by omega)
      simp only [mul_loop, hstep, hstep2, if_pos hd, ih _ hb2, if_true,
        eq_self_iff_true]
      congr 1
      have hcong : ((base + base) % p + adder) % p ≡ base + base + adder [MOD p] :=
        (Nat.mod_modEq _ p).trans ((Nat.mod_modEq _ _).add_right adder)
      calc (((base + base) % p + adder) % p * 2 ^ ds.length + bitsVal ds * adder) % p
          = ((base + base + adder) * 2 ^ ds.length + bitsVal ds * adder) % p :=
            (hcong.mul_right _).add_right _
        _ = (base * 2 ^ (d :: ds).length + bitsVal (d :: ds) * adder) % p := by
            simp only [List.length_cons, bitsVal, if_pos hd, one_mul]
            ring_nf
    · simp only [mul_loop, hstep, if_neg hd, ih _ hb1, if_true, eq_self_iff_true]
      congr 1
      have hcong : (base + base) % p ≡ base + base [MOD p] := Nat.mod_modEq _ _
      calc ((base + base) % p * 2 ^ ds.length + bitsVal ds * adder) % p
          = ((base + base) * 2 ^ ds.length + bitsVal ds * adder) % p :=
            (hcong.mul_right _).add_right _
        _ = (base * 2 ^ (d :: ds).length + bitsVal (d :: ds) * adder) % p := by
            simp only [List.length_cons, bitsVal, if_neg hd, zero_mul, zero_add]
            ring_nf

theorem mul_loop_off (adder p : Nat) (h1 : 1 ≤ p) (h2 : p ≤ U256MAX) :
    ∀ bits : List Nat,
      mul_loop adder p bits 0 false = some ((bitsVal bits * adder) % p) := by
  intro bits
  induction bits with
  | nil => simp [mul_loop, bitsVal]
  | cons d ds ih =>
    by_cases hd : 0 < d
    · have hstep : add_mod 0 adder p = some ((0 + adder) % p) :=
        add_mod_eq _ _ _ h1 h2
      have hlt : (0 + adder) % p < p := Nat.mod_lt _ (by omega)
      simp only [mul_loop, if_pos hd, hstep, mul_loop_on adder p h1 h2 _ _ hlt,
        Bool.false_eq_true, if_false]
      congr 1
      have hcong : (0 + adder) % p ≡ adder [MOD p] := by
        simpa using (Nat.mod_modEq (0 + adder) p)
      calc ((0 + adder) % p * 2 ^ ds.length + bitsVal ds * adder) % p
          = (adder * 2 ^ ds.length + bitsVal ds * adder) % p :=
            (hcong.mul_right _).add_right _
        _ = (bitsVal (d :: ds) * adder) % p := by
            simp only [bitsVal, if_pos hd, one_mul]
            ring_nf
    · simp only [mul_loop, if_neg hd, ih, bitsVal, zero_mul, zero_add,
        Bool.false_eq_true, if_false]

theorem mul_mod_eq (a b p : Nat) (h1 : 1 ≤ p) (h2 : p ≤ U256MAX) :
    mul_mod a b p = some (a * b % p) := by
  have hp0 : p ≠ 0 := by omega
  have hlt : p ≤ 2 ^ 256 := by
    have : U256MAX = 2 ^ 256 - 1 := rfl
    omega
  have hval : ∀ m : Nat, m < p → bitsVal (bytes_to_binary m) = m := by
    intro m hm
    rw [bytes_to_binary, bitsVal_natBits]
    exact Nat.mod_eq_of_lt (by omega)
  have hx1 : a % p < p := Nat.mod_lt _ (by omega)
  have hx2 : b % p < p := Nat.mod_lt _ (by omega)
  simp only [mul_mod, checked_rem, if_neg hp0]
  by_cases hc : a % p < b % p
  · simp only [if_pos hc, mul_loop_off _ _ h1 h2, hval _ hx1]
    rw [Nat.mul_mod a b p]
  · simp only [if_neg hc, mul_loop_off _ _ h1 h2, hval _ hx2]
    rw [Nat.mul_mod a b p, Nat.mul_comm]

/-- The square-and-multiply loop of `U256::exp_mod`: identical in shape to
`mul_loop` with `mul_mod` in place of `add_mod`. -/
def exp_loop (multiplier p : Nat) : List Nat → Nat → Bool → Option Nat
  | [], base, _ => some base
  | d :: ds, base, flag =>
    match (if flag then mul_mod base base p else some base) with
    | none => none
    | some b1 =>
      if 0 < d then
        match mul_mod b1 multiplier p with
        | none => none
        | some b2 => exp_loop multiplier p ds b2 true
      else exp_loop multiplier p ds b1 flag

/-- `U256::exp_mod` from `src/u256.rs`: reduce the base mod `p` (the exponent
is used unreduced), start the accumulator at one and run square-and-multiply
over the 256 bits of the exponent. -/
def exp_mod (a e p : Nat) : Option Nat :=
  match checked_rem a p with
  | some m => exp_loop m p (bytes_to_binary e) 1 false
  | none => none

theorem exp_loop_on (m p : Nat) (h1 : 1 ≤ p) (h2 : p ≤ U256MAX) :
    ∀ (bits : List Nat) (base : Nat), base < p →
      exp_loop m p bits base true =
        some ((base ^ 2 ^ bits.length * m ^ bitsVal bits) % p) := by
  intro bits
  induction bits with
  | nil =>
    intro base hb
    simp [exp_loop, bitsVal, Nat.mod_eq_of_lt hb]
  | cons d ds ih =>
    intro base hb
    have hstep : mul_mod base base p = some (base * base % p) :=
      mul_mod_eq _ _ _ h1 h2
    have hb1 : base * base % p < p := Nat.mod_lt _ (by omega)
    by_cases hd : 0 < d
    · have hstep2 : mul_mod (base * base % p) m p =
          some (base * base % p * m % p) := mul_mod_eq _ _ _ h1 h2
      have hb2 : base * base % p * m % p < p := Nat.mod_lt _ (by omega)
      simp only [exp_loop, hstep, hstep2, if_pos hd, ih _ hb2, if_true,
        eq_self_iff_true]
      congr 1
      have hcong : base * base % p * m % p ≡ base * base * m [MOD p] :=
        (Nat.mod_modEq _ p).trans ((Nat.mod_modEq _ _).mul_right m)
      calc ((base * base % p * m % p) ^ 2 ^ ds.length * m ^ bitsVal ds) % p
          = ((base * base * m) ^ 2 ^ ds.length * m ^ bitsVal ds) % p :=
            ((hcong.pow _).mul_right _)
        _ = (base ^ 2 ^ (d :: ds).length * m ^ bitsVal (d :: ds)) % p := by
            simp only [List.length_cons, bitsVal, if_pos hd, one_mul]
            rw [pow_succ, pow_add]
            ring_nf
    · simp only [exp_loop, hstep, if_neg hd, ih _ hb1, if_true, eq_self_iff_true]
      congr 1
      have hcong : base * base % p ≡ base * base [MOD p] := Nat.mod_modEq _ _
      calc ((base * base % p) ^ 2 ^ ds.length * m ^ bitsVal ds) % p
          = ((base * base) ^ 2 ^ ds.length * m ^ bitsVal ds) % p :=
            ((hcong.pow _).mul_right _)
        _ = (base ^ 2 ^ (d :: ds).length * m ^ bitsVal (d :: ds)) % p := by
            simp only [List.length_cons, bitsVal, if_neg hd, zero_mul, zero_add]
            rw [pow_succ]
            ring_nf

theorem exp_loop_off (m p : Nat) (h1 : 1 ≤ p) (h2 : p ≤ U256MAX) :
    ∀ bits : List Nat,
      exp_loop m p bits 1 false =
        some (if bitsVal bits = 0 then 1 else m ^ bitsVal bits % p) := by
  intro bits
  induction bits with
  | nil => simp [exp_loop, bitsVal]
  | cons d ds ih =>
    by_cases hd : 0 < d
    · have hstep : mul_mod 1 m p = some (1 * m % p) := mul_mod_eq _ _ _ h1 h2
      have hlt : 1 * m % p < p := Nat.mod_lt _ (by omega)
      have hnz : bitsVal (d :: ds) = 2 ^ ds.length + bitsVal ds := by
        simp [bitsVal, hd]
      have hpos : 2 ^ ds.length + bitsVal ds ≠ 0 := by
        have : 0 < 2 ^ ds.length := Nat.pos_pow_of_pos _ (by norm_num)
        omega
      simp only [exp_loop, if_pos hd, hstep, exp_loop_on m p h1 h2 _ _ hlt,
        Bool.false_eq_true, if_false, hnz, if_neg hpos]
      congr 1
      have hcong : 1 * m % p ≡ m [MOD p] := by
        rw [one_mul]
        exact Nat.mod_modEq m p
      calc ((1 * m % p) ^ 2 ^ ds.length * m ^ bitsVal ds) % p
          = (m ^ 2 ^ ds.length * m ^ bitsVal ds) % p := ((hcong.pow _).mul_right _)
        _ = m ^ (2 ^ ds.length + bitsVal ds) % p := by rw [pow_add]
    · have hz : bitsVal (d :: ds) = bitsVal ds := by simp [bitsVal, hd]
      simp only [exp_loop, if_neg hd, ih, Bool.false_eq_true, if_false, hz]

theorem exp_mod_eq (a e p : Nat) (h1 : 1 ≤ p) (h2 : p ≤ U256MAX)
    (he : e ≤ U256MAX) :
    exp_mod a e p = some (if e = 0 then 1 else a ^ e % p) := by
  have hp0 : p ≠ 0 := by omega
  have hbits : bitsVal (bytes_to_binary e) = e := by
    rw [bytes_to_binary, bitsVal_natBits]
    have : U256MAX = 2 ^ 256 - 1 := rfl
    exact Nat.mod_eq_of_lt (by omega)
  simp only [exp_mod, checked_rem, if_neg hp0, exp_loop_off _ _ h1 h2, hbits]
  by_cases he0 : e = 0
  · simp [he0]
  · simp only [if_neg he0]
    exact congrArg some ((Nat.mod_modEq a p).pow e)

/-- `U256::div_mod` from `src/u256.rs`: `assert!(p >= 2)`, then
`a * b ^ (p - 2) (mod p)` via `exp_mod` and `mul_mod` (Fermat).  The failed
assertion for `p < 2` is the `none` case. -/
def div_mod (a b p : Nat) : Option Nat :=
  if 2 ≤ p then
    match exp_mod b (p - 2) p with
    | some x => mul_mod a x p
    | none => none
  else none

theorem div_mod_eq (a b p : Nat) (h2 : 2 ≤ p) (hM : p ≤ U256MAX) :
    div_mod a b p = some (a * b ^ (p - 2) % p) := by
  have h1 : 1 ≤ p := by omega
  have he : p - 2 ≤ U256MAX := by omega
  simp only [div_mod, if_pos h2, exp_mod_eq b (p - 2) p h1 hM he]
  by_cases hq : p - 2 = 0
  · simp only [hq, eq_self_iff_true, if_true, mul_mod_eq _ _ _ h1 hM, pow_zero,
      mul_one]
  · simp only [if_neg hq, mul_mod_eq _ _ _ h1 hM]
    congr 1
    exact ((Nat.mod_modEq _ _).mul_left a)

/-- The round trip `a.div_mod(b, p).mul_mod(b, p)` of the spec's modular
division inverse law. -/
def div_mul_round (a b p : Nat) : Option Nat :=
  match div_mod a b p with
  | some r => mul_mod r b p
  | none => none

/-- The round trip `a.add_mod(b, p).sub_mod(b, p)` of the spec's additive
inverse law. -/
def add_sub_round (a b p : Nat) : Option Nat :=
  match add_mod a b p with
  | some r => sub_mod r b p
  | none => none

/-- The operation produced a value (did not panic) and that value is a
canonical residue, below the modulus. -/
def resultInRange (o : Option Nat) (p : Nat) : Prop := o.getD p < p

theorem div_mul_round_eq (a b p : Nat) (hp : Nat.Prime p) (hM : p ≤ U256MAX)
    (hco : Nat.Coprime b p) : div_mul_round a b p = some (a % p) := by
  have h2 : 2 ≤ p := hp.two_le
  have h1 : 1 ≤ p := by omega
  have hfermat : b ^ (p - 1) ≡ 1 [MOD p] := by
    have := Nat.ModEq.pow_totient hco
    rwa [Nat.totient_prime hp] at this
  simp only [div_mul_round, div_mod_eq a b p h2 hM, mul_mod_eq _ _ _ h1 hM]
  congr 1
  have hstep : a * b ^ (p - 2) % p * b ≡ a * b ^ (p - 1) [MOD p] := by
    have hpow : a * b ^ (p - 2) * b = a * b ^ (p - 1) := by
      have hexp : p - 2 + 1 = p - 1 := by omega
      rw [mul_assoc, ← pow_succ, hexp]
    calc a * b ^ (p - 2) % p * b
        ≡ a * b ^ (p - 2) * b [MOD p] := (Nat.mod_modEq _ _).mul_right b
      _ = a * b ^ (p - 1) := hpow
  have hfin : a * b ^ (p - 1) ≡ a [MOD p] := by
    have := hfermat.mul_left a
    rwa [mul_one] at this
  exact hstep.trans hfin

/-- An affine point of `src/secp256k1.rs`: an ordered pair of 256-bit
coordinates. -/
structure EccPoint where
  x : Nat
  y : Nat
  deriving DecidableEq

/-- `EccPoint::is_zero_point`: the identity sentinel test, true exactly when
both coordinates are zero. -/
def EccPoint.is_zero_point (pt : EccPoint) : Bool :=
  pt.x == 0 && pt.y == 0

namespace SECP256K1

/-- `SECP256K1::p`: the secp256k1 field prime. -/
def p : Nat :=
  0xFFFFFFFFFFFFFFFFFFFFFFFFFFFFFFFFFFFFFFFFFFFFFFFFFFFFFFFEFFFFFC2F

/-- `SECP256K1::g`: the generator point. -/
def g : EccPoint :=
  { x := 0x79BE667EF9DCBBAC55A06295CE870B07029BFCDB2DCE28D959F2815B16F81798,
    y := 0x483ADA7726A3C4655DA4FBFC0E1108A8FD17B448A68554199C47D08FFB10D4B8 }

/-- `SECP256K1::zero_point`: the `(0, 0)` identity sentinel. -/
def zero_point : EccPoint := { x := 0, y := 0 }

/-- `SECP256K1::add_points` from `src/secp256k1.rs`.  The leading
`assert!(pt1.x != pt2.x)` is the first `none` case; then the identity
sentinel checks; then the chord-slope formulas, in the exact operation
order of the source. -/
def add_points (pt1 pt2 : EccPoint) : Option EccPoint :=
  if pt1.x = pt2.x then none
  else if pt1.is_zero_point then some pt2
  else if pt2.is_zero_point then some pt1
  else
    match sub_mod pt1.y pt2.y p with
    | none => none
    | some y_diff =>
      match sub_mod pt1.x pt2.x p with
      | none => none
      | some x_diff =>
        match div_mod y_diff x_diff p with
        | none => none
        | some lambda =>
          match mul_mod lambda lambda p with
          | none => none
          | some l2 =>
            match sub_mod l2 pt1.x p with
            | none => none
            | some t1 =>
              match sub_mod t1 pt2.x p with
              | none => none
              | some x3 =>
                match sub_mod pt1.x x3 p with
                | none => none
                | some t2 =>
                  match mul_mod t2 lambda p with
                  | none => none
                  | some t3 =>
                    match sub_mod t3 pt1.y p with
                    | none => none
                    | some y3 => some { x := x3, y := y3 }

/-- `SECP256K1::double_point` from `src/secp256k1.rs`: identity and
vertical-tangent (`y = 0`) cases return the identity sentinel, otherwise the
tangent-slope formulas in the exact operation order of the source. -/
def double_point (pt : EccPoint) : Option EccPoint :=
  if pt.is_zero_point then some zero_point
  else if pt.y = 0 then some zero_point
  else
    match mul_mod pt.y 2 p with
    | none => none
    | some two_y =>
      match mul_mod pt.x pt.x p with
      | none => none
      | some xx =>
        match mul_mod xx 3 p with
        | none => none
        | some x1_2_3 =>
          match div_mod x1_2_3 two_y p with
          | none => none
          | some lambda =>
            match mul_mod lambda lambda p with
            | none => none
            | some l2 =>
              match sub_mod l2 pt.x p with
              | none => none
              | some t1 =>
                match sub_mod t1 pt.x p with
                | none => none
                | some x3 =>
                  match sub_mod pt.x x3 p with
                  | none => none
                  | some t2 =>
                    match mul_mod t2 lambda p with
                    | none => none
                    | some t3 =>
                      match sub_mod t3 pt.y p with
                      | none => none
                      | some y3 => some { x := x3, y := y3 }

/-- The double-and-add loop of `SECP256K1::pr_to_pub` over the bits of the
private key, with the generator as constant addend. -/
def pr_loop : List Nat → EccPoint → Bool → Option EccPoint
  | [], base, _ => some base
  | d :: ds, base, flag =>
    match (if flag then double_point base else some base) with
    | none => none
    | some b1 =>
      if 0 < d then
        match add_points b1 g with
        | none => none
        | some b2 => pr_loop ds b2 true
      else pr_loop ds b1 flag

/-- `SECP256K1::pr_to_pub` from `src/secp256k1.rs`: double-and-add scalar
multiplication of the generator by the private key. -/
def pr_to_pub (pr : Nat) : Option EccPoint :=
  pr_loop (bytes_to_binary pr) zero_point false

end SECP256K1

theorem secp_p_ge_two : 2 ≤ SECP256K1.p := by norm_num [SECP256K1.p]

theorem secp_p_le_MAX : SECP256K1.p ≤ U256MAX := by
  norm_num [SECP256K1.p, U256MAX]

theorem is_zero_point_iff (pt : EccPoint) :
    pt.is_zero_point = true ↔ pt.x = 0 ∧ pt.y = 0 := by
  simp [EccPoint.is_zero_point]

theorem pr_loop_zeros (k : Nat) (rest : List Nat) :
    SECP256K1.pr_loop (List.replicate k 0 ++ rest) SECP256K1.zero_point false =
      SECP256K1.pr_loop rest SECP256K1.zero_point false := by
  induction k with
  | zero => rfl
  | succ k ih => exact ih

theorem add_sub_round_eq (a b q : Nat) (h1 : 1 ≤ q) (hM : q ≤ U256MAX) :
    add_sub_round a b q = some (a % q) := by
  have hq0 : q ≠ 0 := by omega
  have hb : b % q < q := Nat.mod_lt _ (by omega)
  have hmm : ∀ m : Nat, m % q % q = m % q := fun m => Nat.mod_mod_of_dvd _ dvd_rfl
  simp only [add_sub_round, add_mod_eq _ _ _ h1 hM, sub_mod_eq _ _ _ h1 hM, hmm]
  refine congrArg some ?_
  have step1 : (a + b) % q ≡ a % q + b % q [MOD q] := by
    show (a + b) % q % q = (a % q + b % q) % q
    rw [hmm, Nat.add_mod]
  have step2 : a % q + b % q + (q - b % q) = a % q + q := by omega
  calc ((a + b) % q + (q - b % q)) % q
      = (a % q + b % q + (q - b % q)) % q := step1.add_right _
    _ = (a % q + q) % q := by rw [step2]
    _ = a % q % q := Nat.add_mod_right _ _
    _ = a % q := hmm a

theorem double_point_isSome (pt : EccPoint) (hz : pt.is_zero_point = false)
    (hy : pt.y ≠ 0) : (SECP256K1.double_point pt).isSome = true := by
  have h2 := secp_p_ge_two
  have h1 : 1 ≤ SECP256K1.p := by omega
  have hM := secp_p_le_MAX
  simp only [SECP256K1.double_point, hz, Bool.false_eq_true, if_false,
    if_neg hy, mul_mod_eq _ _ _ h1 hM, div_mod_eq _ _ _ h2 hM,
    sub_mod_eq _ _ _ h1 hM, Option.isSome_some]

/-! ## Claim theorems -/

/-- C1 (amended): when the two operands have distinct x-coordinates,
`SECP256K1::add_points` returns the non-identity operand unchanged whenever
the other operand is the identity sentinel `(0, 0)`.  When both operands are
the identity sentinel, the leading `assert!(pt1.x != pt2.x)` aborts instead
of returning the other operand. -/
theorem add_points_identity_returns_other (p1 p2 : EccPoint)
    (hx : p1.x ≠ p2.x) :
    (p1.is_zero_point = true → SECP256K1.add_points p1 p2 = some p2) ∧
    (p2.is_zero_point = true → SECP256K1.add_points p1 p2 = some p1) := by
  constructor
  · intro hz
    simp [SECP256K1.add_points, if_neg hx, hz]
  · intro hz
    have hz1 : p1.is_zero_point = false := by
      cases hb : p1.is_zero_point with
      | false => rfl
      | true =>
        exact absurd (((is_zero_point_iff p1).1 hb).1.trans
          (((is_zero_point_iff p2).1 hz).1.symm)) hx
    simp [SECP256K1.add_points, if_neg hx, hz1, hz]

/-- C1 counterexample: with both operands equal to the identity sentinel, the
x-coordinates coincide, so `add_points` hits the failed assertion (modelled
as `none`) instead of returning the other operand. -/
theorem add_points_zero_zero_aborts :
    SECP256K1.add_points SECP256K1.zero_point SECP256K1.zero_point = none :=
  rfl

/-- C1 witness: the amended statement evaluated at the identity sentinel and
the point `(1, 1)`. -/
theorem add_points_identity_returns_other_witness :
    SECP256K1.add_points { x := 0, y := 0 } { x := 1, y := 1 } =
      some { x := 1, y := 1 } :=
  (add_points_identity_returns_other { x := 0, y := 0 } { x := 1, y := 1 }
    (by decide)).1 (by decide)

/-- C6: `SECP256K1::add_points` aborts (the failed `assert!`, modelled as
`none`) on every pair of points with equal x-coordinates, including the
point-negation case, returning no result. -/
theorem add_points_equal_x_aborts (p1 p2 : EccPoint) (h : p1.x = p2.x) :
    SECP256K1.add_points p1 p2 = none := by
  simp [SECP256K1.add_points, h]

/-- C6 witness: two points sharing the x-coordinate 5, as in the
point-negation configuration. -/
theorem add_points_equal_x_aborts_witness :
    SECP256K1.add_points { x := 5, y := 1 } { x := 5, y := 2 } = none :=
  add_points_equal_x_aborts { x := 5, y := 1 } { x := 5, y := 2 } rfl

section

attribute [local irreducible] SECP256K1.double_point

theorem pr_loop_step_one (ds : List Nat) (base b2 : EccPoint)
    (h : SECP256K1.add_points base SECP256K1.g = some b2) :
    SECP256K1.pr_loop (1 :: ds) base false = SECP256K1.pr_loop ds b2 true := by
  show (match SECP256K1.add_points base SECP256K1.g with
        | none => (none : Option EccPoint)
        | some b => SECP256K1.pr_loop ds b true) =
      SECP256K1.pr_loop ds b2 true
  rw [h]

theorem pr_loop_step_zero_some (ds : List Nat) (base b1 : EccPoint)
    (h : SECP256K1.double_point base = some b1) :
    SECP256K1.pr_loop (0 :: ds) base true = SECP256K1.pr_loop ds b1 true := by
  show (match SECP256K1.double_point base with
        | none => (none : Option EccPoint)
        | some b => SECP256K1.pr_loop ds b true) =
      SECP256K1.pr_loop ds b1 true
  rw [h]

theorem pr_loop_step_zero_none (ds : List Nat) (base : EccPoint)
    (h : SECP256K1.double_point base = none) :
    SECP256K1.pr_loop (0 :: ds) base true = none := by
  show (match SECP256K1.double_point base with
        | none => (none : Option EccPoint)
        | some b => SECP256K1.pr_loop ds b true) = none
  rw [h]

set_option maxRecDepth 4000 in
/-- C7: scalar multiplication by 2 agrees with doubling on the generator:
`SECP256K1::pr_to_pub(2)` takes exactly the path add-identity-then-double and
returns the same point as `SECP256K1::double_point(G)`, which does produce a
point (no abort). -/
theorem pr_to_pub_two_eq_double_g :
    SECP256K1.pr_to_pub 2 = SECP256K1.double_point SECP256K1.g ∧
    (SECP256K1.double_point SECP256K1.g).isSome = true := by
  constructor
  · have hbits : bytes_to_binary 2 = List.replicate 254 0 ++ [1, 0] := by decide
    have hadd : SECP256K1.add_points SECP256K1.zero_point SECP256K1.g =
        some SECP256K1.g := by decide
    rw [SECP256K1.pr_to_pub, hbits, pr_loop_zeros,
      pr_loop_step_one [0] SECP256K1.zero_point SECP256K1.g hadd]
    rcases hdg : SECP256K1.double_point SECP256K1.g with _ | q
    · exact pr_loop_step_zero_none [] SECP256K1.g hdg
    · exact pr_loop_step_zero_some [] SECP256K1.g q hdg
  · exact double_point_isSome SECP256K1.g (by decide) (by decide)

end

/-- C3: for every modulus `1 ≤ p ≤ MAX`, `U256::add_mod` returns exactly
`(a + b) mod p`, and that value lies in `[0, p)`; the overflow-compensation
branch yields this same value. -/
theorem add_mod_correct (a b q : Nat) (h1 : 1 ≤ q) (hM : q ≤ U256MAX) :
    add_mod a b q = some ((a + b) % q) ∧ (a + b) % q < q :=
  ⟨add_mod_eq a b q h1 hM, Nat.mod_lt _ (by omega)⟩

/-- C3 witness: the reference test vector `add_mod(0xBD, 0x2B, 0xB) = 0x1`. -/
theorem add_mod_correct_witness :
    add_mod 0xBD 0x2B 0xB = some ((0xBD + 0x2B) % 0xB) ∧
      (0xBD + 0x2B) % 0xB < 0xB :=
  add_mod_correct 0xBD 0x2B 0xB (by norm_num) (by norm_num [U256MAX])

/-- C4: for every modulus `1 ≤ p ≤ MAX`, `U256::mul_mod` returns exactly
`(a * b) mod p`; in particular `a.mul_mod(1, p) = a mod p`. -/
theorem mul_mod_correct (a b q : Nat) (h1 : 1 ≤ q) (hM : q ≤ U256MAX) :
    mul_mod a b q = some (a * b % q) ∧ mul_mod a 1 q = some (a % q) := by
  refine ⟨mul_mod_eq a b q h1 hM, ?_⟩
  have h := mul_mod_eq a 1 q h1 hM
  rwa [mul_one] at h

/-- C4 witness: the reference test vector `mul_mod(0xa, 0xd, 0xabcdef01)`. -/
theorem mul_mod_correct_witness :
    mul_mod 0xa 0xd 0xabcdef01 = some (0xa * 0xd % 0xabcdef01) ∧
      mul_mod 0xa 1 0xabcdef01 = some (0xa % 0xabcdef01) :=
  mul_mod_correct 0xa 0xd 0xabcdef01 (by norm_num) (by norm_num [U256MAX])

/-- C5: for every prime modulus `p ≤ MAX`, `U256::div_mod(a, b, p)` equals
`a * b ^ (p - 2) mod p`, and for `b` coprime to `p` the round trip
`a.div_mod(b, p).mul_mod(b, p)` gives back `a mod p`. -/
theorem div_mod_correct (a b q : Nat) (hp : Nat.Prime q) (hM : q ≤ U256MAX) :
    div_mod a b q = some (a * b ^ (q - 2) % q) ∧
    (Nat.Coprime b q → div_mul_round a b q = some (a % q)) :=
  ⟨div_mod_eq a b q hp.two_le hM, fun hco => div_mul_round_eq a b q hp hM hco⟩

/-- C5 witness: division by 3 modulo the prime 5, with the multiplication
round trip restoring `7 mod 5`. -/
theorem div_mod_correct_witness :
    div_mod 7 3 5 = some (7 * 3 ^ (5 - 2) % 5) ∧
      div_mul_round 7 3 5 = some (7 % 5) :=
  ⟨(div_mod_correct 7 3 5 (by norm_num) (by norm_num [U256MAX])).1,
   (div_mod_correct 7 3 5 (by norm_num) (by norm_num [U256MAX])).2 (by decide)⟩

/-- C8: the round trip `a.add_mod(b, p).sub_mod(b, p)` restores `a mod p` for
every `1 ≤ p ≤ MAX`; `sub_mod` itself is `add_mod(a mod p, p - b mod p, p)`
and its result lies in `[0, p)`. -/
theorem add_sub_roundtrip (a b q : Nat) (h1 : 1 ≤ q) (hM : q ≤ U256MAX) :
    add_sub_round a b q = some (a % q) ∧
    sub_mod a b q = add_mod (a % q) (q - b % q) q ∧
    resultInRange (sub_mod a b q) q := by
  refine ⟨add_sub_round_eq a b q h1 hM, ?_, ?_⟩
  · simp only [sub_mod, checked_rem, if_neg (by omega : ¬ q = 0)]
  · rw [resultInRange, sub_mod_eq _ _ _ h1 hM, Option.getD_some]
    exact Nat.mod_lt _ (by omega)

/-- C8 witness: the round trip at `a = 100`, `b = 37`, `p = 11`. -/
theorem add_sub_roundtrip_witness :
    add_sub_round 100 37 11 = some (100 % 11) ∧
    sub_mod 100 37 11 = add_mod (100 % 11) (11 - 37 % 11) 11 ∧
    resultInRange (sub_mod 100 37 11) 11 :=
  add_sub_roundtrip 100 37 11 (by norm_num) (by norm_num [U256MAX])

/-- C9: for every modulus `p ≥ 1` (and `p ≤ MAX`, as forced by the 256-bit
type), every internal failure branch of `U256::add_mod` is unreachable: the
operation always returns a value rather than panicking. -/
theorem add_mod_never_panics (a b q : Nat) (h1 : 1 ≤ q) (hM : q ≤ U256MAX) :
    (add_mod a b q).isSome = true := by
  rw [add_mod_eq a b q h1 hM]
  rfl

/-- C9 witness: an overflowing instance, both reduced operands close to the
maximal modulus, still returns a value. -/
theorem add_mod_never_panics_witness :
    (add_mod (2 ^ 256 - 2) (2 ^ 256 - 3) (2 ^ 256 - 1)).isSome = true :=
  add_mod_never_panics (2 ^ 256 - 2) (2 ^ 256 - 3) (2 ^ 256 - 1)
    (by norm_num) (by norm_num [U256MAX])

/-- C10: `U256::mul_mod` is commutative for every modulus `p ≥ 1`: the
implementation always picks the smaller reduced operand as the bit-driven
sequence, independently of argument order. -/
theorem mul_mod_commutative (a b q : Nat) (h1 : 1 ≤ q) :
    mul_mod a b q = mul_mod b a q := by
  have hq : q ≠ 0 := by omega
  simp only [mul_mod, checked_rem, if_neg hq]
  rcases Nat.lt_trichotomy (a % q) (b % q) with h | h | h
  · rw [if_pos h, if_neg (by omega)]
  · rw [if_neg (by omega), if_neg (by omega), h]
  · rw [if_neg (by omega), if_pos h]

/-- C10 witness: `mul_mod` at swapped arguments `3, 5` modulo `7`. -/
theorem mul_mod_commutative_witness : mul_mod 3 5 7 = mul_mod 5 3 7 :=
  mul_mod_commutative 3 5 7 (by norm_num)

/-- C2 (amended): for every modulus `1 ≤ p ≤ MAX`, `add_mod`, `sub_mod` and
`mul_mod` return canonical residues in `[0, p)`, `div_mod` does so whenever
its precondition `p ≥ 2` holds, and `exp_mod` does so whenever `p ≥ 2` or the
exponent is nonzero.  The exception to the claim: with `p = 1` and exponent
`0`, `exp_mod` returns its initial accumulator `1`, outside `[0, 1)`. -/
theorem u256_ops_canonical (a b e q : Nat) (h1 : 1 ≤ q) (hM : q ≤ U256MAX)
    (he : e ≤ U256MAX) :
    resultInRange (add_mod a b q) q ∧ resultInRange (sub_mod a b q) q ∧
    resultInRange (mul_mod a b q) q ∧
    (2 ≤ q ∨ 1 ≤ e → resultInRange (exp_mod a e q) q) ∧
    (2 ≤ q → resultInRange (div_mod a b q) q) := by
  refine ⟨?_, ?_, ?_, ?_, ?_⟩
  · rw [resultInRange, add_mod_eq a b q h1 hM, Option.getD_some]
    exact Nat.mod_lt _ (by omega)
  · rw [resultInRange, sub_mod_eq a b q h1 hM, Option.getD_some]
    exact Nat.mod_lt _ (by omega)
  · rw [resultInRange, mul_mod_eq a b q h1 hM, Option.getD_some]
    exact Nat.mod_lt _ (by omega)
  · intro hor
    rw [resultInRange, exp_mod_eq a e q h1 hM he, Option.getD_some]
    by_cases he0 : e = 0
    · have h2 : 2 ≤ q := by rcases hor with h | h; exact h; omega
      rw [if_pos he0]
      omega
    · rw [if_neg he0]
      exact Nat.mod_lt _ (by omega)
  · intro h2
    rw [resultInRange, div_mod_eq a b q h2 hM, Option.getD_some]
    exact Nat.mod_lt _ (by omega)

set_option maxRecDepth 4000 in
/-- C2 counterexample: `exp_mod(3, 0, 1)` does not abort and returns `1`,
which is not in `[0, 1)`, refuting the claim for exponent `0` with modulus
`1`. -/
theorem exp_mod_escapes_range :
    exp_mod 3 0 1 = some 1 ∧ ¬ resultInRange (exp_mod 3 0 1) 1 := by
  have h : exp_mod 3 0 1 = some 1 := by decide
  refine ⟨h, ?_⟩
  rw [resultInRange, h, Option.getD_some]
  omega

/-- C2 witness: all five operations at `a = 5`, `b = 3`, `e = 2`, `p = 7`
return values in `[0, 7)`. -/
theorem u256_ops_canonical_witness :
    resultInRange (add_mod 5 3 7) 7 ∧ resultInRange (sub_mod 5 3 7) 7 ∧
    resultInRange (mul_mod 5 3 7) 7 ∧ resultInRange (exp_mod 5 2 7) 7 ∧
    resultInRange (div_mod 5 3 7) 7 := by
  have h := u256_ops_canonical 5 3 2 7 (by norm_num) (by norm_num [U256MAX])
    (by norm_num [U256MAX])
  exact ⟨h.1, h.2.1, h.2.2.1, h.2.2.2.1 (Or.inl (by norm_num)),
    h.2.2.2.2 (by norm_num)⟩
